import Mathlib

/-!
# Verification of the `angle` module (Radians / Degrees)

Shallow embedding of `src/angle.rs`: the two single-field angular unit
wrappers `Radians<T>` and `Degrees<T>` and their `Angle` contract
operations.  The generic scalar `T : Float` is modelled by the real
numbers (the idealized semantics of the finite, non-NaN floating-point
values); Rust's `%` on floats (remainder truncated toward zero) is
modelled explicitly by `frem`.  Non-finite IEEE inputs (NaN, ±∞) are
modelled separately by the extended scalar type `FpReal`.
-/

open Real

/-- Truncation toward zero on ℝ, the rounding used by Rust's float `%`. -/
noncomputable def rustTrunc (r : ℝ) : ℝ :=
  if 0 ≤ r then (⌊r⌋ : ℤ) else (⌈r⌉ : ℤ)

/-- Rust's floating-point remainder `x % y` (idealized over ℝ):
`x - y * trunc (x / y)`.  For `y > 0` it has the sign of `x`. -/
noncomputable def frem (x y : ℝ) : ℝ :=
  x - y * rustTrunc (x / y)

/-- The fixed tolerance `FUZZY_EPSILON = 1.0e-6` of the standard
library's `FuzzyEq` used by both units (`std::cmp::FuzzyEq`). -/
noncomputable def fuzzyEpsilon : ℝ := 1 / 1000000

/-- `fuzzy_eq` on raw scalars: absolute difference below the fixed
epsilon.  Modelled from the spec: the scalar-level `FuzzyEq` instance
lives in the language standard library, outside this repository; the
spec fixes its meaning as "absolute difference below epsilon `1e-6`". -/
def fuzzyEqScalar (a b : ℝ) : Prop := |a - b| < fuzzyEpsilon

/-- The mathematical wrap into `[0, y)`: `y * fract (x / y)`.  Used as
the specification value that the source's two-step algorithm computes. -/
noncomputable def mathWrap (x y : ℝ) : ℝ := y * Int.fract (x / y)

/-- `pub enum Radians<T> = T;` — a single-field wrapper. -/
structure Radians where
  val : ℝ

/-- `pub enum Degrees<T> = T;` — a single-field wrapper. -/
structure Degrees where
  val : ℝ

namespace Radians

noncomputable def full_turn : Radians := ⟨2 * Real.pi⟩

noncomputable def half_turn : Radians := ⟨Real.pi⟩

noncomputable def quadrant : Radians := ⟨Real.pi / 2⟩

noncomputable def sextant : Radians := ⟨Real.pi / 3⟩

noncomputable def octant : Radians := ⟨Real.pi / 4⟩

def zero : Radians := ⟨0⟩

def to_radians (θ : Radians) : Radians := θ

noncomputable def to_degrees (θ : Radians) : Degrees := ⟨θ.val * (180 / Real.pi)⟩

def add (θ ψ : Radians) : Radians := ⟨θ.val + ψ.val⟩

def sub (θ ψ : Radians) : Radians := ⟨θ.val - ψ.val⟩

def mul (θ : Radians) (s : ℝ) : Radians := ⟨θ.val * s⟩

noncomputable def div (θ : Radians) (s : ℝ) : Radians := ⟨θ.val / s⟩

noncomputable def modulo (θ : Radians) (s : ℝ) : Radians := ⟨frem θ.val s⟩

def neg (θ : Radians) : Radians := ⟨-θ.val⟩

def fuzzy_eq (θ ψ : Radians) : Prop := fuzzyEqScalar θ.val ψ.val

def eq (θ ψ : Radians) : Prop := θ.val = ψ.val

def ne (θ ψ : Radians) : Prop := θ.val ≠ ψ.val

def lt (θ ψ : Radians) : Prop := θ.val < ψ.val

def le (θ ψ : Radians) : Prop := θ.val ≤ ψ.val

def ge (θ ψ : Radians) : Prop := θ.val ≥ ψ.val

def gt (θ ψ : Radians) : Prop := θ.val > ψ.val

noncomputable instance (θ ψ : Radians) : Decidable (θ.ge ψ) :=
  inferInstanceAs (Decidable (ψ.val ≤ θ.val))

/-- `wrap`: `let theta = self % cast(2.0 * pi); if theta >= zero
{ theta } else { theta + full_turn() }`. -/
noncomputable def wrap (θ : Radians) : Radians :=
  let theta := θ.modulo (2 * Real.pi)
  if theta.ge zero then theta else theta.add full_turn

/-- `opposite`: `(self + half_turn()).wrap()`. -/
noncomputable def opposite (θ : Radians) : Radians :=
  (θ.add half_turn).wrap

/-- `to_str`: `fmt!("%? rad", *self)`.  The numeric rendering `%?` of
the scalar is the language runtime's, passed in abstractly as `s`. -/
def to_str (s : ℝ → String) (θ : Radians) : String := s θ.val ++ " rad"

end Radians

namespace Degrees

def full_turn : Degrees := ⟨360⟩

def half_turn : Degrees := ⟨180⟩

def quadrant : Degrees := ⟨90⟩

def sextant : Degrees := ⟨60⟩

def octant : Degrees := ⟨45⟩

def zero : Degrees := ⟨0⟩

noncomputable def to_radians (θ : Degrees) : Radians := ⟨θ.val * (Real.pi / 180)⟩

def to_degrees (θ : Degrees) : Degrees := θ

def add (θ ψ : Degrees) : Degrees := ⟨θ.val + ψ.val⟩

def sub (θ ψ : Degrees) : Degrees := ⟨θ.val - ψ.val⟩

def mul (θ : Degrees) (s : ℝ) : Degrees := ⟨θ.val * s⟩

noncomputable def div (θ : Degrees) (s : ℝ) : Degrees := ⟨θ.val / s⟩

noncomputable def modulo (θ : Degrees) (s : ℝ) : Degrees := ⟨frem θ.val s⟩

def neg (θ : Degrees) : Degrees := ⟨-θ.val⟩

def fuzzy_eq (θ ψ : Degrees) : Prop := fuzzyEqScalar θ.val ψ.val

def eq (θ ψ : Degrees) : Prop := θ.val = ψ.val

def ne (θ ψ : Degrees) : Prop := θ.val ≠ ψ.val

def lt (θ ψ : Degrees) : Prop := θ.val < ψ.val

def le (θ ψ : Degrees) : Prop := θ.val ≤ ψ.val

def ge (θ ψ : Degrees) : Prop := θ.val ≥ ψ.val

def gt (θ ψ : Degrees) : Prop := θ.val > ψ.val

noncomputable instance (θ ψ : Degrees) : Decidable (θ.ge ψ) :=
  inferInstanceAs (Decidable (ψ.val ≤ θ.val))

/-- `wrap`: `let theta = self % cast(360); if theta >= zero
{ theta } else { theta + full_turn() }`. -/
noncomputable def wrap (θ : Degrees) : Degrees :=
  let theta := θ.modulo 360
  if theta.ge zero then theta else theta.add full_turn

/-- `opposite`: `(self + half_turn()).wrap()`. -/
noncomputable def opposite (θ : Degrees) : Degrees :=
  (θ.add half_turn).wrap

/-- `to_str`: `fmt!("%?\xB0", *self)`.  The numeric rendering `%?` of
the scalar is the language runtime's, passed in abstractly as `s`. -/
def to_str (s : ℝ → String) (θ : Degrees) : String := s θ.val ++ "°"

end Degrees

/- ### Core lemmas about `frem` and the wrap algorithm -/

lemma frem_eq_mul (x y : ℝ) (hy : y ≠ 0) :
    frem x y = y * (x / y - rustTrunc (x / y)) := by
  unfold frem
  field_simp

/-- The source's two-step wrap algorithm computes `mathWrap`:
remainder truncated toward zero, then conditionally shifted up. -/
lemma wrapAlg_eq_mathWrap (x y : ℝ) (hy : 0 < y) :
    (if 0 ≤ frem x y then frem x y else frem x y + y) = mathWrap x y := by
  have hy' : y ≠ 0 := ne_of_gt hy
  set r := x / y with hr
  rcases le_or_lt 0 r with hpos | hneg
  · have ht : rustTrunc r = (⌊r⌋ : ℤ) := if_pos hpos
    have hfr : frem x y = y * Int.fract r := by
      rw [frem_eq_mul x y hy', ht]; rfl
    have h0 : 0 ≤ frem x y := by
      rw [hfr]
      exact mul_nonneg hy.le (Int.fract_nonneg r)
    rw [if_pos h0, hfr, mathWrap]
  · have ht : rustTrunc r = (⌈r⌉ : ℤ) := if_neg (not_le.mpr hneg)
    by_cases hz : Int.fract r = 0
    · have hfl : r = (⌊r⌋ : ℝ) := by
        have h2 : Int.fract r = r - ⌊r⌋ := rfl
        rw [h2] at hz
        linarith
      have hceil : ⌈r⌉ = ⌊r⌋ :=
        le_antisymm (Int.ceil_le.mpr (le_of_eq hfl)) (Int.floor_le_ceil r)
      have hfr : frem x y = 0 := by
        rw [frem_eq_mul x y hy', ht]
        have hc : ((⌈r⌉ : ℤ) : ℝ) = r := by rw [hceil]; exact hfl.symm
        rw [hc]
        ring
      rw [if_pos (le_of_eq hfr.symm), hfr, mathWrap, hz, mul_zero]
    · have hceil : (⌈r⌉ : ℝ) = r + 1 - Int.fract r :=
        Int.ceil_eq_add_one_sub_fract hz
      have hfr : frem x y = y * (Int.fract r - 1) := by
        rw [frem_eq_mul x y hy', ht, hceil]
        ring
      have hlt : frem x y < 0 := by
        rw [hfr]
        have h1 : Int.fract r - 1 < 0 := by
          linarith [Int.fract_lt_one r]
        exact mul_neg_of_pos_of_neg hy h1
      rw [if_neg (not_le.mpr hlt), hfr, mathWrap]
      ring

lemma mathWrap_nonneg (x y : ℝ) (hy : 0 < y) : 0 ≤ mathWrap x y :=
  mul_nonneg hy.le (Int.fract_nonneg _)

lemma mathWrap_lt (x y : ℝ) (hy : 0 < y) : mathWrap x y < y := by
  have := Int.fract_lt_one (x / y)
  calc mathWrap x y = y * Int.fract (x / y) := rfl
    _ < y * 1 := by exact mul_lt_mul_of_pos_left this hy
    _ = y := mul_one y

/-- `mathWrap` fixes any value already in `[0, y)`. -/
lemma mathWrap_eq_self (x y : ℝ) (hy : 0 < y) (h0 : 0 ≤ x) (h1 : x < y) :
    mathWrap x y = x := by
  unfold mathWrap
  have hfr : Int.fract (x / y) = x / y := by
    rw [Int.fract_eq_self]
    constructor
    · exact div_nonneg h0 hy.le
    · exact (div_lt_one hy).mpr h1
  rw [hfr]
  field_simp

lemma mathWrap_idem (x y : ℝ) (hy : 0 < y) :
    mathWrap (mathWrap x y) y = mathWrap x y :=
  mathWrap_eq_self _ y hy (mathWrap_nonneg x y hy) (mathWrap_lt x y hy)

/-- `mathWrap` is invariant under shifting by integer multiples of `y`. -/
lemma mathWrap_add_int_mul (x y : ℝ) (k : ℤ) (hy : 0 < y) :
    mathWrap (x + y * k) y = mathWrap x y := by
  unfold mathWrap
  have hy' : y ≠ 0 := ne_of_gt hy
  have : (x + y * k) / y = x / y + k := by
    field_simp
    ring
  rw [this, Int.fract_add_int]

/-- The wrapped value is congruent to the input modulo `y`. -/
lemma mathWrap_sub (x y : ℝ) (hy : 0 < y) :
    mathWrap x y = x + y * (-⌊x / y⌋ : ℤ) := by
  unfold mathWrap Int.fract
  have hy' : y ≠ 0 := ne_of_gt hy
  push_cast
  field_simp
  ring

lemma Radians.wrap_eq_mathWrapR (θ : Radians) :
    θ.wrap = ⟨mathWrap θ.val (2 * Real.pi)⟩ := by
  unfold Radians.wrap Radians.modulo Radians.ge Radians.zero Radians.add Radians.full_turn
  rw [← wrapAlg_eq_mathWrap θ.val (2 * Real.pi) Real.two_pi_pos]
  split
  · rename_i h
    rw [if_pos h]
  · rename_i h
    rw [if_neg h]

lemma Degrees.wrap_eq_mathWrapD (θ : Degrees) :
    θ.wrap = ⟨mathWrap θ.val 360⟩ := by
  have h360 : (0:ℝ) < 360 := by norm_num
  unfold Degrees.wrap Degrees.modulo Degrees.ge Degrees.zero Degrees.add Degrees.full_turn
  rw [← wrapAlg_eq_mathWrap θ.val 360 h360]
  split
  · rename_i h
    rw [if_pos h]
  · rename_i h
    rw [if_neg h]

lemma fuzzyEqScalar_refl (a : ℝ) : fuzzyEqScalar a a := by
  unfold fuzzyEqScalar fuzzyEpsilon
  simp

/- ### Extended IEEE scalar for non-finite inputs -/

/-- The full IEEE value set of the scalar type `T`: a finite real,
NaN, positive infinity or negative infinity. -/
inductive FpReal where
  | fin (x : ℝ)
  | nan
  | pinf
  | ninf

namespace FpReal

def isFinite : FpReal → Bool
  | .fin _ => true
  | _ => false

/-- IEEE float remainder over the extended values: NaN dividend, an
infinite dividend, or a zero divisor yield NaN; finite pairs compute
the truncated remainder `frem`; a finite dividend with an infinite
divisor is returned unchanged. -/
noncomputable def fpRem : FpReal → FpReal → FpReal
  | .fin a, .fin b => if b = 0 then .nan else .fin (frem a b)
  | .fin a, .pinf => .fin a
  | .fin a, .ninf => .fin a
  | _, _ => .nan

/-- IEEE addition over the extended values: NaN propagates, and
`+∞ + -∞` is NaN. -/
noncomputable def fpAdd : FpReal → FpReal → FpReal
  | .fin a, .fin b => .fin (a + b)
  | .fin _, .pinf => .pinf
  | .pinf, .fin _ => .pinf
  | .pinf, .pinf => .pinf
  | .fin _, .ninf => .ninf
  | .ninf, .fin _ => .ninf
  | .ninf, .ninf => .ninf
  | _, _ => .nan

/-- IEEE `>=` over the extended values: any comparison involving NaN
is false. -/
noncomputable def fpGe : FpReal → FpReal → Bool
  | .fin a, .fin b => decide (a ≥ b)
  | .fin _, .pinf => false
  | .fin _, .ninf => true
  | .fin _, .nan => false
  | .pinf, .nan => false
  | .pinf, _ => true
  | .ninf, .ninf => true
  | .ninf, _ => false
  | .nan, _ => false

end FpReal

/-- `Radians::wrap` over the full IEEE value set of the scalar: the
same two-step algorithm (`%` by `2π`, compare with zero, conditionally
add a full turn) with IEEE semantics for the non-finite values. -/
noncomputable def Radians.wrapF (θ : FpReal) : FpReal :=
  let theta := FpReal.fpRem θ (.fin (2 * Real.pi))
  if FpReal.fpGe theta (.fin 0) then theta
  else FpReal.fpAdd theta (.fin (2 * Real.pi))

/-- `Degrees::wrap` over the full IEEE value set of the scalar. -/
noncomputable def Degrees.wrapF (θ : FpReal) : FpReal :=
  let theta := FpReal.fpRem θ (.fin 360)
  if FpReal.fpGe theta (.fin 0) then theta
  else FpReal.fpAdd theta (.fin 360)

/- ### Concrete floor values used by the test vectors -/

lemma floor_neg_quarter : ⌊(-(1:ℝ)/4)⌋ = -1 := by
  rw [Int.floor_eq_iff]
  norm_num

lemma fract_neg_quarter : Int.fract (-(1:ℝ)/4) = 3/4 := by
  unfold Int.fract
  rw [floor_neg_quarter]
  norm_num

lemma floor_five_quarters : ⌊(5:ℝ)/4⌋ = 1 := by
  rw [Int.floor_eq_iff]
  norm_num

lemma fract_five_quarters : Int.fract ((5:ℝ)/4) = 1/4 := by
  unfold Int.fract
  rw [floor_five_quarters]
  norm_num

/-- Shared algebraic core of claim C7: shifting by `h` then wrapping
commutes with wrapping first, exactly. -/
lemma wrap_shift_comm (x h y : ℝ) (hy : 0 < y) :
    mathWrap (mathWrap x y + h) y = mathWrap (mathWrap (x + h) y) y := by
  rw [mathWrap_idem _ y hy, mathWrap_sub x y hy]
  have hrw : x + y * ((-⌊x / y⌋ : ℤ) : ℝ) + h
      = (x + h) + y * ((-⌊x / y⌋ : ℤ) : ℝ) := by ring
  rw [hrw, mathWrap_add_int_mul _ y _ hy]

/- ### Claim theorems -/

/-- Claim C1: for every finite input angle `x` of either unit,
`wrap(x)` lies in the canonical half-open range:
`zero() <= wrap(x)` and `wrap(x) < full_turn()`. -/
theorem C1_wrap_range (θ : Radians) (φ : Degrees) :
    (Radians.zero.le θ.wrap ∧ θ.wrap.lt Radians.full_turn) ∧
    (Degrees.zero.le φ.wrap ∧ φ.wrap.lt Degrees.full_turn) := by
  rw [Radians.wrap_eq_mathWrapR, Degrees.wrap_eq_mathWrapD]
  have h360 : (0:ℝ) < 360 := by norm_num
  refine ⟨⟨?_, ?_⟩, ?_, ?_⟩
  · exact mathWrap_nonneg θ.val _ Real.two_pi_pos
  · exact mathWrap_lt θ.val _ Real.two_pi_pos
  · exact mathWrap_nonneg φ.val _ h360
  · exact mathWrap_lt φ.val _ h360

/-- Claim C2: for every finite input angle of either unit, `wrap` is
idempotent under the exact scalar equality `eq`:
`wrap(wrap(x)) == wrap(x)`. -/
theorem C2_wrap_idempotent (θ : Radians) (φ : Degrees) :
    θ.wrap.wrap.eq θ.wrap ∧ φ.wrap.wrap.eq φ.wrap := by
  have h360 : (0:ℝ) < 360 := by norm_num
  rw [Radians.wrap_eq_mathWrapR θ, Degrees.wrap_eq_mathWrapD φ,
    Radians.wrap_eq_mathWrapR, Degrees.wrap_eq_mathWrapD]
  exact ⟨mathWrap_idem θ.val _ Real.two_pi_pos, mathWrap_idem φ.val _ h360⟩

/-- Claim C3: unit conversion round-trips within the `1e-6` tolerance:
`Degrees(x).to_radians().to_degrees()` fuzzy-equals `Degrees(x)`, and
`Radians(x).to_degrees().to_radians()` fuzzy-equals `Radians(x)`. -/
theorem C3_round_trip (x : ℝ) :
    (Degrees.mk x).to_radians.to_degrees.fuzzy_eq (Degrees.mk x) ∧
    (Radians.mk x).to_degrees.to_radians.fuzzy_eq (Radians.mk x) := by
  have hpi : Real.pi ≠ 0 := Real.pi_ne_zero
  have hd : x * (Real.pi / 180) * (180 / Real.pi) = x := by
    field_simp
  have hr : x * (180 / Real.pi) * (Real.pi / 180) = x := by
    field_simp
  constructor
  · show fuzzyEqScalar (x * (Real.pi / 180) * (180 / Real.pi)) x
    rw [hd]
    exact fuzzyEqScalar_refl x
  · show fuzzyEqScalar (x * (180 / Real.pi) * (Real.pi / 180)) x
    rw [hr]
    exact fuzzyEqScalar_refl x

/-- Claim C4: `wrap` follows the stated algorithm — `theta = x % c`
with `c` the full-turn raw scalar (`2π` / `360`), returned as is when
`theta >= 0` and as `theta + full_turn` otherwise — and in particular
`Degrees(-90).wrap()` fuzzy-equals `Degrees(270)` and
`Radians(-π/2).wrap()` fuzzy-equals `Radians(3π/2)`. -/
theorem C4_wrap_algorithm :
    (∀ θ : Radians, θ.wrap =
      if 0 ≤ frem θ.val (2 * Real.pi) then Radians.mk (frem θ.val (2 * Real.pi))
      else Radians.mk (frem θ.val (2 * Real.pi) + 2 * Real.pi)) ∧
    (∀ φ : Degrees, φ.wrap =
      if 0 ≤ frem φ.val 360 then Degrees.mk (frem φ.val 360)
      else Degrees.mk (frem φ.val 360 + 360)) ∧
    (Degrees.mk (-90)).wrap.fuzzy_eq (Degrees.mk 270) ∧
    (Radians.mk (-(Real.pi / 2))).wrap.fuzzy_eq (Radians.mk (3 * Real.pi / 2)) := by
  have h360 : (0:ℝ) < 360 := by norm_num
  refine ⟨?_, ?_, ?_, ?_⟩
  · intro θ
    rw [Radians.wrap_eq_mathWrapR, ← wrapAlg_eq_mathWrap θ.val _ Real.two_pi_pos,
      apply_ite Radians.mk]
  · intro φ
    rw [Degrees.wrap_eq_mathWrapD, ← wrapAlg_eq_mathWrap φ.val _ h360,
      apply_ite Degrees.mk]
  · rw [Degrees.wrap_eq_mathWrapD]
    show fuzzyEqScalar (mathWrap (-90) 360) 270
    have hq : (-90 : ℝ) / 360 = -(1:ℝ)/4 := by norm_num
    have : mathWrap (-90) 360 = 270 := by
      unfold mathWrap
      rw [hq, fract_neg_quarter]
      norm_num
    rw [this]
    exact fuzzyEqScalar_refl 270
  · rw [Radians.wrap_eq_mathWrapR]
    show fuzzyEqScalar (mathWrap (-(Real.pi / 2)) (2 * Real.pi)) (3 * Real.pi / 2)
    have h2pi : (2:ℝ) * Real.pi ≠ 0 := ne_of_gt Real.two_pi_pos
    have hq : (-(Real.pi / 2)) / (2 * Real.pi) = -(1:ℝ)/4 := by
      rw [div_eq_iff h2pi]
      ring
    have : mathWrap (-(Real.pi / 2)) (2 * Real.pi) = 3 * Real.pi / 2 := by
      unfold mathWrap
      rw [hq, fract_neg_quarter]
      ring
    rw [this]
    exact fuzzyEqScalar_refl _

/-- Claim C5: for every angle of either unit, `opposite(x)` equals
`(x + half_turn()).wrap()`, and in particular `Degrees(0).opposite()`
fuzzy-equals `Degrees(180)` and `Degrees(270).opposite()` fuzzy-equals
`Degrees(90)`. -/
theorem C5_opposite (θ : Radians) (φ : Degrees) :
    θ.opposite = (θ.add Radians.half_turn).wrap ∧
    φ.opposite = (φ.add Degrees.half_turn).wrap ∧
    (Degrees.mk 0).opposite.fuzzy_eq (Degrees.mk 180) ∧
    (Degrees.mk 270).opposite.fuzzy_eq (Degrees.mk 90) := by
  refine ⟨rfl, rfl, ?_, ?_⟩
  · show ((Degrees.mk 0).add Degrees.half_turn).wrap.fuzzy_eq (Degrees.mk 180)
    rw [Degrees.wrap_eq_mathWrapD]
    show fuzzyEqScalar (mathWrap ((0:ℝ) + 180) 360) 180
    have : mathWrap ((0:ℝ) + 180) 360 = 180 := by
      rw [show ((0:ℝ) + 180) = 180 by norm_num]
      exact mathWrap_eq_self 180 360 (by norm_num) (by norm_num) (by norm_num)
    rw [this]
    exact fuzzyEqScalar_refl 180
  · show ((Degrees.mk 270).add Degrees.half_turn).wrap.fuzzy_eq (Degrees.mk 90)
    rw [Degrees.wrap_eq_mathWrapD]
    show fuzzyEqScalar (mathWrap ((270:ℝ) + 180) 360) 90
    have hq : ((270:ℝ) + 180) / 360 = (5:ℝ)/4 := by norm_num
    have : mathWrap ((270:ℝ) + 180) 360 = 90 := by
      unfold mathWrap
      rw [hq, fract_five_quarters]
      norm_num
    rw [this]
    exact fuzzyEqScalar_refl 90

/-- Claim C6: `to_radians` on Radians and `to_degrees` on Degrees are
the identity, and cross-unit conversion multiplies the underlying
scalar by the exact ratio: `π/180` for `Degrees::to_radians` and
`180/π` for `Radians::to_degrees`. -/
theorem C6_conversion (x : ℝ) :
    (Radians.mk x).to_radians = Radians.mk x ∧
    (Degrees.mk x).to_degrees = Degrees.mk x ∧
    (Degrees.mk x).to_radians = Radians.mk (x * (Real.pi / 180)) ∧
    (Radians.mk x).to_degrees = Degrees.mk (x * (180 / Real.pi)) :=
  ⟨rfl, rfl, rfl, rfl⟩

/-- Claim C7: for every finite, non-NaN angle of either unit, `wrap`
and `opposite` commute under fuzzy equality:
`x.wrap().opposite()` fuzzy-equals `x.opposite().wrap()`. -/
theorem C7_wrap_opposite_commute (θ : Radians) (φ : Degrees) :
    θ.wrap.opposite.fuzzy_eq θ.opposite.wrap ∧
    φ.wrap.opposite.fuzzy_eq φ.opposite.wrap := by
  have h360 : (0:ℝ) < 360 := by norm_num
  constructor
  · show (θ.wrap.add Radians.half_turn).wrap.fuzzy_eq (θ.add Radians.half_turn).wrap.wrap
    rw [Radians.wrap_eq_mathWrapR θ, Radians.wrap_eq_mathWrapR (θ.add Radians.half_turn)]
    rw [Radians.wrap_eq_mathWrapR, Radians.wrap_eq_mathWrapR]
    show fuzzyEqScalar (mathWrap (mathWrap θ.val (2 * Real.pi) + Real.pi) (2 * Real.pi))
      (mathWrap (mathWrap (θ.val + Real.pi) (2 * Real.pi)) (2 * Real.pi))
    rw [wrap_shift_comm θ.val Real.pi _ Real.two_pi_pos]
    exact fuzzyEqScalar_refl _
  · show (φ.wrap.add Degrees.half_turn).wrap.fuzzy_eq (φ.add Degrees.half_turn).wrap.wrap
    rw [Degrees.wrap_eq_mathWrapD φ, Degrees.wrap_eq_mathWrapD (φ.add Degrees.half_turn)]
    rw [Degrees.wrap_eq_mathWrapD, Degrees.wrap_eq_mathWrapD]
    show fuzzyEqScalar (mathWrap (mathWrap φ.val 360 + 180) 360)
      (mathWrap (mathWrap (φ.val + 180) 360) 360)
    rw [wrap_shift_comm φ.val 180 360 h360]
    exact fuzzyEqScalar_refl _

/-- Claim C8: addition and subtraction cancel under fuzzy equality:
for same-unit angles, `a.add(b).sub(b)` fuzzy-equals `a`. -/
theorem C8_add_sub_cancel (a b : Radians) (c d : Degrees) :
    ((a.add b).sub b).fuzzy_eq a ∧ ((c.add d).sub d).fuzzy_eq c := by
  constructor
  · show fuzzyEqScalar (a.val + b.val - b.val) a.val
    rw [add_sub_cancel_right]
    exact fuzzyEqScalar_refl a.val
  · show fuzzyEqScalar (c.val + d.val - d.val) c.val
    rw [add_sub_cancel_right]
    exact fuzzyEqScalar_refl c.val

/-- Claim C9: the textual rendering is the scalar's numeric rendering
followed by the unit suffix — `"<value> rad"` for Radians and
`"<value>°"` for Degrees — so with a scalar formatter rendering `1`
as `"1"` and `180` as `"180"`, `Radians(1)` renders as `"1 rad"` and
`Degrees(180)` renders as `"180°"`. -/
theorem C9_to_str (s t : ℝ → String) (hs : s 1 = "1") (ht : t 180 = "180") :
    (∀ x : ℝ, Radians.to_str s (Radians.mk x) = s x ++ " rad") ∧
    (∀ x : ℝ, Degrees.to_str t (Degrees.mk x) = t x ++ "°") ∧
    Radians.to_str s (Radians.mk 1) = "1 rad" ∧
    Degrees.to_str t (Degrees.mk 180) = "180°" := by
  refine ⟨fun _ => rfl, fun _ => rfl, ?_, ?_⟩
  · show s 1 ++ " rad" = "1 rad"
    rw [hs]
    rfl
  · show t 180 ++ "°" = "180°"
    rw [ht]
    rfl

/-- Witness for C9 at the constant formatters. -/
theorem C9_to_str_witness :
    ((fun _ : ℝ => "1") 1 = "1") ∧ ((fun _ : ℝ => "180") 180 = "180") ∧
    (Radians.to_str (fun _ : ℝ => "1") (Radians.mk 1) = "1 rad" ∧
     Degrees.to_str (fun _ : ℝ => "180") (Degrees.mk 180) = "180°") :=
  ⟨rfl, rfl, (C9_to_str (fun _ : ℝ => "1") (fun _ : ℝ => "180") rfl rfl).2.2⟩

/-- Claim C10: for every non-finite input (NaN, `+∞` or `-∞`) of
either unit, `wrap` returns NaN: the remainder by the full-turn
scalar is NaN, the comparison with zero is false, and adding a full
turn keeps NaN — so `wrap` never fails and never lands in the
canonical range on non-finite inputs. -/
theorem C10_wrap_nonfinite (x : FpReal) (h : x.isFinite = false) :
    Radians.wrapF x = FpReal.nan ∧ Degrees.wrapF x = FpReal.nan := by
  cases x with
  | fin a => simp [FpReal.isFinite] at h
  | nan => exact ⟨rfl, rfl⟩
  | pinf => exact ⟨rfl, rfl⟩
  | ninf => exact ⟨rfl, rfl⟩

/-- Witness for C10 at NaN. -/
theorem C10_wrap_nonfinite_witness :
    FpReal.isFinite FpReal.nan = false ∧
    (Radians.wrapF FpReal.nan = FpReal.nan ∧
     Degrees.wrapF FpReal.nan = FpReal.nan) :=
  ⟨rfl, C10_wrap_nonfinite FpReal.nan rfl⟩
